import Mathlib

/-!
Verification development for the Minesweeper inference engine
(`src/minesweeper.py`).  The Python classes `Sentence` and `MinesweeperAI`
are shallowly embedded as Lean structures; every method is translated into
a pure state-passing function.  Python `set`s of board cells become
`Finset`s, Python `list`s become `List`s (order preserved, removal by value
removes the first occurrence, exactly as `list.remove` does), and Python
integers become `ℤ`.  The only source construct without a direct
deterministic counterpart is iteration over a Python `set` (whose order is
unspecified): every such loop in the source performs a batch of per-cell
`mark_mine`/`mark_safe` calls that commute with one another, so the model
uses an order-free batch update and proves (`mark_mine_all_eq_batch`,
`mark_safe_all_eq_batch`) that folding the single-cell operation over any
duplicate-free enumeration of the set yields the same state.
-/

namespace Minesweeper

set_option maxRecDepth 1000000

/-- A board cell `(row, col)`, the Python tuple `(i, j)`. -/
abbrev Cell := ℤ × ℤ

/-- Python class `Sentence`: a set of cells and the count of mines among
them.  Python `__eq__` compares `cells` and `count`, which is exactly
structural equality here. -/
@[ext]
structure Sentence where
  cells : Finset Cell
  count : ℤ
deriving DecidableEq

/-- `Sentence.known_mines`: returns the cells when `len(self.cells) == self.count`,
otherwise Python implicitly returns `None`. -/
def Sentence.known_mines (s : Sentence) : Option (Finset Cell) :=
  if (s.cells.card : ℤ) = s.count then some s.cells else none

/-- `Sentence.known_safes`: returns the cells when `self.count == 0`,
otherwise Python implicitly returns `None`. -/
def Sentence.known_safes (s : Sentence) : Option (Finset Cell) :=
  if s.count = 0 then some s.cells else none

/-- `Sentence.mark_mine`: if the cell is in the sentence, remove it and
decrease the count by one. -/
def Sentence.mark_mine (s : Sentence) (cell : Cell) : Sentence :=
  if cell ∈ s.cells then ⟨s.cells.erase cell, s.count - 1⟩ else s

/-- `Sentence.mark_safe`: if the cell is in the sentence, remove it; the
count is unchanged. -/
def Sentence.mark_safe (s : Sentence) (cell : Cell) : Sentence :=
  if cell ∈ s.cells then ⟨s.cells.erase cell, s.count⟩ else s

/-- State of a Python `MinesweeperAI` object. -/
@[ext]
structure AI where
  height : ℤ
  width : ℤ
  moves_made : Finset Cell
  mines : Finset Cell
  safes : Finset Cell
  knowledge : List Sentence
deriving DecidableEq

/-- `MinesweeperAI.__init__`. -/
def AI.init (height width : ℤ) : AI :=
  ⟨height, width, ∅, ∅, ∅, []⟩

/-- `MinesweeperAI.mark_mine`: add the cell to `mines` (guarded, as in the
source, by `cell not in self.mines`) and call `Sentence.mark_mine` on every
sentence of the knowledge base. -/
def AI.mark_mine (st : AI) (cell : Cell) : AI :=
  { st with
    mines := if cell ∉ st.mines then insert cell st.mines else st.mines,
    knowledge := st.knowledge.map (fun s => s.mark_mine cell) }

/-- `MinesweeperAI.mark_safe`: add the cell to `safes` (guarded by
`cell not in self.safes`) and call `Sentence.mark_safe` on every sentence. -/
def AI.mark_safe (st : AI) (cell : Cell) : AI :=
  { st with
    safes := if cell ∉ st.safes then insert cell st.safes else st.safes,
    knowledge := st.knowledge.map (fun s => s.mark_safe cell) }

/-- Folding `MinesweeperAI.mark_mine` over a list of cells: the source's
`for c in tuple(mines): self.mark_mine(c)`, for one particular enumeration
order of the Python set. -/
def AI.mark_mine_all (st : AI) (cs : List Cell) : AI :=
  cs.foldl AI.mark_mine st

/-- Folding `MinesweeperAI.mark_safe` over a list of cells. -/
def AI.mark_safe_all (st : AI) (cs : List Cell) : AI :=
  cs.foldl AI.mark_safe st

/-- Batch form of marking every cell of a `Finset` as a mine: the net
effect of the source loop `for c in tuple(mines): self.mark_mine(c)`,
independent of the (unspecified) iteration order of the Python set.
Each sentence loses the marked cells it contains and its count drops by
the number of cells removed. -/
def AI.mark_mine_batch (st : AI) (cs : Finset Cell) : AI :=
  { st with
    mines := st.mines ∪ cs,
    knowledge := st.knowledge.map
      (fun s => ⟨s.cells \ cs, s.count - ((s.cells ∩ cs).card : ℤ)⟩) }

/-- Batch form of marking every cell of a `Finset` as safe: counts are
unchanged. -/
def AI.mark_safe_batch (st : AI) (cs : Finset Cell) : AI :=
  { st with
    safes := st.safes ∪ cs,
    knowledge := st.knowledge.map (fun s => ⟨s.cells \ cs, s.count⟩) }

theorem Sentence.mark_mine_eq (s : Sentence) (c : Cell) :
    s.mark_mine c
      = ⟨s.cells.erase c, s.count - if c ∈ s.cells then 1 else 0⟩ := by
  by_cases h : c ∈ s.cells <;>
    simp [Sentence.mark_mine, h, Finset.erase_eq_of_not_mem]

theorem Sentence.mark_safe_eq (s : Sentence) (c : Cell) :
    s.mark_safe c = ⟨s.cells.erase c, s.count⟩ := by
  by_cases h : c ∈ s.cells <;>
    simp [Sentence.mark_safe, h, Finset.erase_eq_of_not_mem]

theorem AI.mark_mine_mines (st : AI) (c : Cell) :
    (st.mark_mine c).mines = insert c st.mines := by
  by_cases h : c ∈ st.mines <;> simp [AI.mark_mine, h, Finset.insert_eq_self]

theorem AI.mark_safe_safes (st : AI) (c : Cell) :
    (st.mark_safe c).safes = insert c st.safes := by
  by_cases h : c ∈ st.safes <;> simp [AI.mark_safe, h, Finset.insert_eq_self]

/-- Effect of folding the single-cell `Sentence.mark_mine` over a
duplicate-free list of cells. -/
theorem Sentence.foldl_mark_mine (l : List Cell) (s : Sentence)
    (hn : l.Nodup) :
    l.foldl Sentence.mark_mine s
      = ⟨s.cells \ l.toFinset, s.count - ((s.cells ∩ l.toFinset).card : ℤ)⟩ := by
  induction l generalizing s with
  | nil => simp
  | cons c t ih =>
    have hc : c ∉ t := (List.nodup_cons.mp hn).1
    have ht : t.Nodup := (List.nodup_cons.mp hn).2
    have step : (c :: t).foldl Sentence.mark_mine s
        = t.foldl Sentence.mark_mine (s.mark_mine c) := rfl
    rw [step, ih (s.mark_mine c) ht, Sentence.mark_mine_eq]
    have hcT : c ∉ t.toFinset := by simpa using hc
    have e1 : s.cells.erase c ∩ t.toFinset = s.cells ∩ t.toFinset := by
      ext y
      simp only [Finset.mem_inter, Finset.mem_erase]
      constructor
      · rintro ⟨⟨_, hy⟩, hyt⟩; exact ⟨hy, hyt⟩
      · rintro ⟨hy, hyt⟩
        refine ⟨⟨?_, hy⟩, hyt⟩
        rintro rfl; exact hcT hyt
    ext x
    · simp only [List.toFinset_cons, Finset.mem_sdiff, Finset.mem_erase,
        Finset.mem_insert]
      tauto
    · simp only [List.toFinset_cons, e1]
      by_cases h : c ∈ s.cells
      · have e2 : s.cells ∩ insert c t.toFinset
            = insert c (s.cells ∩ t.toFinset) := by
          ext y
          by_cases hy : y = c <;> simp [hy, h]
        have hni : c ∉ s.cells ∩ t.toFinset := by
          simp [hcT]
        rw [e2, Finset.card_insert_of_not_mem hni, if_pos h]
        push_cast
        ring
      · have e2 : s.cells ∩ insert c t.toFinset = s.cells ∩ t.toFinset := by
          ext y
          by_cases hy : y = c <;> simp [hy, h]
        rw [e2, if_neg h]
        ring

/-- Effect of folding the single-cell `Sentence.mark_safe` over a list of
cells. -/
theorem Sentence.foldl_mark_safe (l : List Cell) (s : Sentence) :
    l.foldl Sentence.mark_safe s = ⟨s.cells \ l.toFinset, s.count⟩ := by
  induction l generalizing s with
  | nil => simp
  | cons c t ih =>
    have step : (c :: t).foldl Sentence.mark_safe s
        = t.foldl Sentence.mark_safe (s.mark_safe c) := rfl
    rw [step, ih (s.mark_safe c), Sentence.mark_safe_eq]
    ext x
    · simp only [List.toFinset_cons, Finset.mem_sdiff, Finset.mem_erase,
        Finset.mem_insert]
      tauto
    · rfl

theorem AI.mark_mine_all_knowledge (st : AI) (l : List Cell) :
    (st.mark_mine_all l).knowledge
      = st.knowledge.map (fun s => l.foldl Sentence.mark_mine s) := by
  induction l generalizing st with
  | nil => simp [AI.mark_mine_all]
  | cons c t ih =>
    have step : st.mark_mine_all (c :: t) = (st.mark_mine c).mark_mine_all t := rfl
    rw [step, ih]
    simp [AI.mark_mine, List.map_map]

theorem AI.mark_safe_all_knowledge (st : AI) (l : List Cell) :
    (st.mark_safe_all l).knowledge
      = st.knowledge.map (fun s => l.foldl Sentence.mark_safe s) := by
  induction l generalizing st with
  | nil => simp [AI.mark_safe_all]
  | cons c t ih =>
    have step : st.mark_safe_all (c :: t) = (st.mark_safe c).mark_safe_all t := rfl
    rw [step, ih]
    simp [AI.mark_safe, List.map_map]

theorem AI.mark_mine_all_fields (st : AI) (l : List Cell) :
    (st.mark_mine_all l).height = st.height ∧
    (st.mark_mine_all l).width = st.width ∧
    (st.mark_mine_all l).moves_made = st.moves_made ∧
    (st.mark_mine_all l).mines = st.mines ∪ l.toFinset ∧
    (st.mark_mine_all l).safes = st.safes := by
  induction l generalizing st with
  | nil => simp [AI.mark_mine_all]
  | cons c t ih =>
    have step : st.mark_mine_all (c :: t) = (st.mark_mine c).mark_mine_all t := rfl
    rw [step]
    rcases ih (st.mark_mine c) with ⟨h1, h2, h3, h4, h5⟩
    refine ⟨h1, h2, h3, ?_, h5⟩
    rw [h4, AI.mark_mine_mines]
    ext x
    simp only [List.toFinset_cons, Finset.mem_union, Finset.mem_insert]
    tauto

theorem AI.mark_safe_all_fields (st : AI) (l : List Cell) :
    (st.mark_safe_all l).height = st.height ∧
    (st.mark_safe_all l).width = st.width ∧
    (st.mark_safe_all l).moves_made = st.moves_made ∧
    (st.mark_safe_all l).mines = st.mines ∧
    (st.mark_safe_all l).safes = st.safes ∪ l.toFinset := by
  induction l generalizing st with
  | nil => simp [AI.mark_safe_all]
  | cons c t ih =>
    have step : st.mark_safe_all (c :: t) = (st.mark_safe c).mark_safe_all t := rfl
    rw [step]
    rcases ih (st.mark_safe c) with ⟨h1, h2, h3, h4, h5⟩
    refine ⟨h1, h2, h3, h4, ?_⟩
    rw [h5, AI.mark_safe_safes]
    ext x
    simp only [List.toFinset_cons, Finset.mem_union, Finset.mem_insert]
    tauto

/-- Marking the cells of a finite set one at a time, in any duplicate-free
enumeration order, agrees with the batch update: the iteration order of
`tuple(mines)` in the source is immaterial. -/
theorem mark_mine_all_eq_batch (st : AI) (cs : Finset Cell) (l : List Cell)
    (hn : l.Nodup) (he : l.toFinset = cs) :
    st.mark_mine_all l = st.mark_mine_batch cs := by
  subst he
  rcases AI.mark_mine_all_fields st l with ⟨h1, h2, h3, h4, h5⟩
  ext1
  · rw [h1]; rfl
  · rw [h2]; rfl
  · rw [h3]; rfl
  · rw [h4]; rfl
  · rw [h5]; rfl
  · rw [AI.mark_mine_all_knowledge]
    simp only [AI.mark_mine_batch]
    apply List.map_congr_left
    intro s _
    exact Sentence.foldl_mark_mine l s hn

/-- Safe-marking analogue of `mark_mine_all_eq_batch`. -/
theorem mark_safe_all_eq_batch (st : AI) (cs : Finset Cell) (l : List Cell)
    (he : l.toFinset = cs) :
    st.mark_safe_all l = st.mark_safe_batch cs := by
  subst he
  rcases AI.mark_safe_all_fields st l with ⟨h1, h2, h3, h4, h5⟩
  ext1
  · rw [h1]; rfl
  · rw [h2]; rfl
  · rw [h3]; rfl
  · rw [h4]; rfl
  · rw [h5]; rfl
  · rw [AI.mark_safe_all_knowledge]
    simp only [AI.mark_safe_batch]
    apply List.map_congr_left
    intro s _
    exact Sentence.foldl_mark_safe l s

/-! ### The inference engine (`MinesweeperAI.add_knowledge`) -/

/-- Python `list.remove(x)`: remove the first element equal (by value) to
`x`; the source never calls it on a list without an occurrence, and on such
lists removing nothing is the correct behaviour of the model anyway. -/
def removeFirst : List Sentence → Sentence → List Sentence
  | [], _ => []
  | y :: ys, x => if y = x then ys else y :: removeFirst ys x

/-- The loop `for s in tuple(live): if s.cells == set(): live.remove(s)`:
the first argument is the snapshot tuple, the second the evolving list. -/
def pruneEmptiesGo : List Sentence → List Sentence → List Sentence
  | [], live => live
  | s :: rest, live =>
      pruneEmptiesGo rest (if s.cells = ∅ then removeFirst live s else live)

/-- Removal of every sentence with an empty cell set, as the source does it
(snapshot of the list, then `remove` per empty snapshot entry). -/
def pruneEmptiesAll (l : List Sentence) : List Sentence := pruneEmptiesGo l l

/-- The loop `for s in tuple(live): if live.count(s) > 1: live.remove(s)`. -/
def dedupGo : List Sentence → List Sentence → List Sentence
  | [], live => live
  | s :: rest, live =>
      dedupGo rest (if 1 < live.count s then removeFirst live s else live)

/-- Removal of duplicate sentences, as the source does it. -/
def dedupAll (l : List Sentence) : List Sentence := dedupGo l l

/-- Body of the double loop of `generate_new_knowledge` for one ordered
pair `(s1, s2)` of sentences of the knowledge snapshot: if the sentences
are distinct with nonzero counts and one cell set contains the other,
append the difference sentence to `new_sentences` unless it is already
pending, already known, or empty.  Both subset tests run, in source
order, the second against the updated pending list. -/
def genPair (know ns : List Sentence) (s1 s2 : Sentence) : List Sentence :=
  if s1 ≠ s2 ∧ s1.count ≠ 0 ∧ s2.count ≠ 0 then
    let ns1 :=
      if s2.cells ⊆ s1.cells then
        let temp : Sentence := ⟨s1.cells \ s2.cells, s1.count - s2.count⟩
        if temp ∉ ns ∧ temp ∉ know ∧ temp.cells ≠ ∅ then ns ++ [temp] else ns
      else ns
    if s1.cells ⊆ s2.cells then
      let temp : Sentence := ⟨s2.cells \ s1.cells, s2.count - s1.count⟩
      if temp ∉ ns1 ∧ temp ∉ know ∧ temp.cells ≠ ∅ then ns1 ++ [temp] else ns1
    else ns1
  else ns

/-- The helper `generate_new_knowledge` defined inside `add_knowledge`:
compare every ordered pair of sentences of the knowledge base and collect
candidate difference sentences into `new_sentences`. -/
def generate_new_knowledge (know ns : List Sentence) : List Sentence :=
  know.foldl (fun acc s1 => know.foldl (fun acc2 s2 => genPair know acc2 s1 s2) acc) ns

/-- First half of one position of the marking pass
`for s in self.knowledge: ...` (lines 285-295 of the source): the sentence
at position `i` is read and its `known_mines` cells (if the result is
truthy, i.e. not `None` and nonempty) are marked via
`MinesweeperAI.mark_mine` (batch form, see the header comment). -/
def passMines (st : AI) (i : ℕ) : AI :=
  match st.knowledge[i]? with
  | none => st
  | some s =>
    match s.known_mines with
    | some ms => if ms ≠ ∅ then st.mark_mine_batch ms else st
    | none => st

/-- Second half of one position of the marking pass: the sentence object at
position `i` has been mutated in place by the mine marks just performed, so
`known_safes` is evaluated on the re-read sentence, and its cells (if
truthy) are marked safe. -/
def passSafes (st : AI) (i : ℕ) : AI :=
  match st.knowledge[i]? with
  | none => st
  | some s =>
    match s.known_safes with
    | some ss => if ss ≠ ∅ then st.mark_safe_batch ss else st
    | none => st

/-- One position `i` of the marking pass: the `known_mines` marks, then the
`known_safes` marks on the mutated sentence. -/
def passStep (st : AI) (i : ℕ) : AI :=
  passSafes (passMines st i) i

/-- The complete marking pass over `self.knowledge`.  The list's length is
invariant during the pass (marking mutates sentences in place, it never
inserts or removes), so Python's live-list iteration is iteration over the
initial range of positions. -/
def markPass (st : AI) : AI :=
  (List.range st.knowledge.length).foldl passStep st

/-- One execution of the body of the inner `while True` loop of
`add_knowledge`: the marking pass followed by the four prune loops
(empty sentences and duplicates, in the knowledge base and in the pending
list, in source order). -/
def innerBody (st : AI) (ns : List Sentence) : AI × List Sentence :=
  let st1 := markPass st
  let k1 := pruneEmptiesAll st1.knowledge
  let ns1 := pruneEmptiesAll ns
  let k2 := dedupAll k1
  let ns2 := dedupAll ns1
  ({ st1 with knowledge := k2 }, ns2)

/-- The inner `while True` loop, with explicit fuel.  The source repeats
the body while `num_mines > len(self.mines) or num_safes > len(self.safes)`
(the counts taken before the pass compared against the counts after it),
re-running `generate_new_knowledge` before each repetition.  Since the
mine and safe sets only ever grow, that condition is provably never true
(`innerLoopAux_eq_innerBody` below), so any positive fuel computes the
loop exactly. -/
def innerLoopAux : ℕ → AI → List Sentence → AI × List Sentence
  | 0, st, ns => (st, ns)
  | fuel+1, st, ns =>
    let p := innerBody st ns
    if st.mines.card > p.1.mines.card ∨ st.safes.card > p.1.safes.card then
      innerLoopAux fuel p.1 (generate_new_knowledge p.1.knowledge p.2)
    else p

/-- The inner `while True` loop of `add_knowledge`.  The fuel
`st.mines.card + st.safes.card + 1` is an upper bound on the number of
repetitions justified by the loop's own guard: the guard demands that a
card strictly decreased, and in fact it never holds
(`innerLoopAux_eq_innerBody`), so any positive fuel gives the same
result. -/
def innerLoop (st : AI) (ns : List Sentence) : AI × List Sentence :=
  innerLoopAux (st.mines.card + st.safes.card + 1) st ns

/-- The outer `while True` loop of `add_knowledge`, with explicit fuel:
pop the last pending sentence; if it is not already known, append it to
the knowledge base, run `generate_new_knowledge` and the inner loop; stop
when the pending list is empty.  `none` means the fuel ran out (or, in the
`getLast?` branch, that `pop` was called on an empty list, which the
control flow of the source never does). -/
def outerLoop : ℕ → AI → List Sentence → Option AI
  | 0, _, _ => none
  | fuel+1, st, ns =>
    match ns.getLast? with
    | none => none
    | some test_sentence =>
      let ns1 := ns.dropLast
      let next :=
        if test_sentence ∉ st.knowledge then
          let stA := { st with knowledge := st.knowledge ++ [test_sentence] }
          innerLoop stA (generate_new_knowledge stA.knowledge ns1)
        else (st, ns1)
      if next.2.length = 0 then some next.1 else outerLoop fuel next.1 next.2

/-- The nine candidate neighbour cells of `cell`, in the order of the
source's double loop `for i in range(-1,2): for j in range(-1,2)` (the
cell itself included, exactly as in the source, where it is filtered out
by the `new_cell not in self.safes` test because `cell` was just marked
safe). -/
def neighborList (cell : Cell) : List Cell :=
  ([-1, 0, 1] : List ℤ).flatMap
    (fun i => ([-1, 0, 1] : List ℤ).map (fun j => (cell.1 + i, cell.2 + j)))

/-- One candidate neighbour of the seed-building loop: if in bounds and
not already safe, either add it to the new sentence's cells (unknown cell)
or, if it is a known mine, bump `count_adjuster`. -/
def seedStep (st : AI) (acc : Finset Cell × ℤ) (new_cell : Cell) :
    Finset Cell × ℤ :=
  if new_cell.1 ≤ st.height - 1 ∧ 0 ≤ new_cell.1 ∧
      new_cell.2 ≤ st.width - 1 ∧ 0 ≤ new_cell.2 then
    if new_cell ∉ st.safes then
      if new_cell ∉ st.mines then (insert new_cell acc.1, acc.2)
      else (acc.1, acc.2 + 1)
    else acc
  else acc

/-- The `temp_set` and `count_adjuster` computed by the seed-building loop
of `add_knowledge` (lines 236-254 of the source). -/
def seedData (st : AI) (cell : Cell) : Finset Cell × ℤ :=
  (neighborList cell).foldl (seedStep st) (∅, 0)

/-- `MinesweeperAI.add_knowledge(cell, count)` with explicit fuel for the
outer loop: record the move, mark the observed cell safe, seed the pending
list with the sentence built from the surviving neighbours and the
adjusted count, and run the outer loop. -/
def add_knowledge_fuel (fuel : ℕ) (st : AI) (cell : Cell) (count : ℤ) :
    Option AI :=
  let st1 := { st with moves_made := insert cell st.moves_made }
  let st2 := st1.mark_safe cell
  let sd := seedData st2 cell
  outerLoop fuel st2 [⟨sd.1, count - sd.2⟩]

/-- A whole session: `MinesweeperAI(height, width)` followed by one
`add_knowledge` call per observation, each given the same fuel. -/
def runGame (height width : ℤ) (fuel : ℕ) (obs : List (Cell × ℤ)) :
    Option AI :=
  obs.foldl (fun acc p => acc.bind (fun st => add_knowledge_fuel fuel st p.1 p.2))
    (some (AI.init height width))

/-! ### Auxiliary lemmas about the sentence-level operations -/

theorem Sentence.mark_mine_idem (s : Sentence) (c : Cell) :
    (s.mark_mine c).mark_mine c = s.mark_mine c := by
  have h2 : c ∉ (s.mark_mine c).cells := by
    by_cases h : c ∈ s.cells <;> simp [Sentence.mark_mine, h]
  show (if c ∈ (s.mark_mine c).cells
      then Sentence.mk ((s.mark_mine c).cells.erase c) ((s.mark_mine c).count - 1)
      else s.mark_mine c) = s.mark_mine c
  rw [if_neg h2]

theorem Sentence.mark_safe_idem (s : Sentence) (c : Cell) :
    (s.mark_safe c).mark_safe c = s.mark_safe c := by
  have h2 : c ∉ (s.mark_safe c).cells := by
    by_cases h : c ∈ s.cells <;> simp [Sentence.mark_safe, h]
  show (if c ∈ (s.mark_safe c).cells
      then Sentence.mk ((s.mark_safe c).cells.erase c) ((s.mark_safe c).count)
      else s.mark_safe c) = s.mark_safe c
  rw [if_neg h2]

/-! ### The mine and safe sets only ever grow during the marking pass -/

theorem passMines_mono (st : AI) (i : ℕ) :
    st.mines ⊆ (passMines st i).mines ∧ st.safes ⊆ (passMines st i).safes := by
  cases h : st.knowledge[i]? with
  | none => simp [passMines, h]
  | some s =>
    cases h2 : s.known_mines with
    | none => simp [passMines, h, h2]
    | some ms =>
      by_cases h3 : ms = ∅
      · simp [passMines, h, h2, h3]
      · simp only [passMines, h, h2, ne_eq, h3, not_false_iff, if_true]
        exact ⟨Finset.subset_union_left, Finset.Subset.refl _⟩

theorem passSafes_mono (st : AI) (i : ℕ) :
    st.mines ⊆ (passSafes st i).mines ∧ st.safes ⊆ (passSafes st i).safes := by
  cases h : st.knowledge[i]? with
  | none => simp [passSafes, h]
  | some s =>
    cases h2 : s.known_safes with
    | none => simp [passSafes, h, h2]
    | some ss =>
      by_cases h3 : ss = ∅
      · simp [passSafes, h, h2, h3]
      · simp only [passSafes, h, h2, ne_eq, h3, not_false_iff, if_true]
        exact ⟨Finset.Subset.refl _, Finset.subset_union_left⟩

theorem passStep_mono (st : AI) (i : ℕ) :
    st.mines ⊆ (passStep st i).mines ∧ st.safes ⊆ (passStep st i).safes := by
  have h1 := passMines_mono st i
  have h2 := passSafes_mono (passMines st i) i
  exact ⟨h1.1.trans h2.1, h1.2.trans h2.2⟩

theorem foldl_passStep_mono (l : List ℕ) (st : AI) :
    st.mines ⊆ (l.foldl passStep st).mines ∧
    st.safes ⊆ (l.foldl passStep st).safes := by
  induction l generalizing st with
  | nil => exact ⟨Finset.Subset.refl _, Finset.Subset.refl _⟩
  | cons i t ih =>
    have h1 := passStep_mono st i
    have h2 := ih (passStep st i)
    exact ⟨h1.1.trans h2.1, h1.2.trans h2.2⟩

theorem markPass_mono (st : AI) :
    st.mines ⊆ (markPass st).mines ∧ st.safes ⊆ (markPass st).safes :=
  foldl_passStep_mono (List.range st.knowledge.length) st

theorem innerBody_mines (st : AI) (ns : List Sentence) :
    (innerBody st ns).1.mines = (markPass st).mines := rfl

theorem innerBody_safes (st : AI) (ns : List Sentence) :
    (innerBody st ns).1.safes = (markPass st).safes := rfl

/-- The guard of the inner `while True` loop of `add_knowledge` compares
the cardinalities recorded before the marking pass with the ones after it
in the wrong direction (`num_mines > len(self.mines)`); since the mine and
safe sets only ever grow, the guard is never true and the loop body runs
exactly once regardless of the available fuel. -/
theorem innerLoopAux_eq_innerBody (f : ℕ) (st : AI) (ns : List Sentence)
    (hf : 1 ≤ f) : innerLoopAux f st ns = innerBody st ns := by
  cases f with
  | zero => omega
  | succ f =>
    have hm : (innerBody st ns).1.mines.card ≥ st.mines.card := by
      rw [innerBody_mines]
      exact Finset.card_le_card (markPass_mono st).1
    have hs : (innerBody st ns).1.safes.card ≥ st.safes.card := by
      rw [innerBody_safes]
      exact Finset.card_le_card (markPass_mono st).2
    have hcond : ¬ (st.mines.card > (innerBody st ns).1.mines.card ∨
        st.safes.card > (innerBody st ns).1.safes.card) := by
      push_neg
      exact ⟨hm, hs⟩
    simp only [innerLoopAux]
    rw [if_neg hcond]

/-! ### Claims C1 and C2: the fixpoint loop stops too early -/

/-- Deductive closure of an AI state, as claimed by the specification: no
direct deduction (a sentence with `count == 0` has all its cells confirmed
safe, a sentence with `count == len(cells)` has all its cells confirmed
mines) and no subset-difference deduction (for distinct sentences with
nonzero counts, one's cells inside the other's, the nonempty difference
sentence is already retained) remains available. -/
def DeductionClosed (st : AI) : Prop :=
  (∀ s ∈ st.knowledge, s.count = 0 → s.cells ⊆ st.safes) ∧
  (∀ s ∈ st.knowledge, (s.cells.card : ℤ) = s.count → s.cells ⊆ st.mines) ∧
  (∀ s1 ∈ st.knowledge, ∀ s2 ∈ st.knowledge,
    s1 ≠ s2 → s1.count ≠ 0 → s2.count ≠ 0 → s2.cells ⊆ s1.cells →
    s1.cells \ s2.cells ≠ ∅ →
    Sentence.mk (s1.cells \ s2.cells) (s1.count - s2.count) ∈ st.knowledge)

instance (st : AI) : Decidable (DeductionClosed st) := by
  unfold DeductionClosed
  infer_instance

/-- A consistent session on a 2×3 grid whose only mine is `(0,0)`:
the cell `(1,0)` (true neighbour-mine count 1) is observed, then `(0,2)`
(true count 0). -/
def unclosedRun : Option AI := runGame 2 3 50 [((1,0),1),((0,2),0)]

/-- The state `unclosedRun` returns (the `getD` fallback is never taken:
`unclosedRun.isSome` is proved below): its knowledge base retains the
sentence `{(0,0)} = 1` although `(0,0)` has not been confirmed a mine. -/
def unclosedState : AI := unclosedRun.getD (AI.init 0 0)

/-- C1: `add_knowledge` can return a knowledge base that is not closed
under the direct-deduction rule.  In the consistent session `unclosedRun`
the second call returns with `{(0,0)} = 1` retained while `(0,0)` is not in
`mines`: the final marking pass confirmed new safe cells and mutated this
sentence only after having visited it, and the loop exited instead of
re-scanning. -/
theorem add_knowledge_returns_unclosed_state :
    unclosedRun.isSome = true ∧
    Sentence.mk {((0:ℤ),(0:ℤ))} 1 ∈ unclosedState.knowledge ∧
    ((0:ℤ),(0:ℤ)) ∉ unclosedState.mines ∧
    ¬ DeductionClosed unclosedState := by decide

/-- C2: the inner saturation loop of `add_knowledge` never re-runs the
subset rule: its guard `num_mines > len(self.mines) or num_safes >
len(self.safes)` compares the pre-pass counts against the post-pass counts
in the wrong direction, so the loop body runs exactly once even when the
pass confirmed new cells — as at the reachable state `unclosedState`,
where the pass confirms the new mine `(0,0)` and the loop still exits. -/
theorem inner_loop_exits_after_single_pass :
    (∀ (st : AI) (ns : List Sentence), innerLoop st ns = innerBody st ns) ∧
    unclosedState.mines.card < (innerBody unclosedState []).1.mines.card ∧
    innerLoop unclosedState [] = innerBody unclosedState [] := by
  refine ⟨fun st ns => innerLoopAux_eq_innerBody _ st ns (by omega), by decide, ?_⟩
  exact innerLoopAux_eq_innerBody _ unclosedState [] (by omega)

/-! ### Sentence equality through double inclusion

Kernel-friendly route to deciding `Sentence` equality and `List Sentence`
membership on computed states (the permutation-based `Finset` equality
test does not always reduce inside the kernel, double inclusion does). -/

/-- Equality of sentences expressed by double inclusion of the cell sets. -/
def Sentence.equiv (x s : Sentence) : Prop :=
  x.cells ⊆ s.cells ∧ s.cells ⊆ x.cells ∧ x.count = s.count

instance (x s : Sentence) : Decidable (x.equiv s) := by
  unfold Sentence.equiv
  infer_instance

theorem Sentence.equiv_iff_eq (x s : Sentence) : x.equiv s ↔ x = s := by
  constructor
  · rintro ⟨h1, h2, h3⟩
    exact Sentence.ext (Finset.Subset.antisymm h1 h2) h3
  · rintro rfl
    exact ⟨Finset.Subset.refl _, Finset.Subset.refl _, rfl⟩

theorem mem_of_exists_equiv {x : Sentence} {l : List Sentence}
    (h : ∃ s ∈ l, x.equiv s) : x ∈ l := by
  rcases h with ⟨s, hs, he⟩
  rw [(Sentence.equiv_iff_eq x s).mp he]
  exact hs

theorem not_mem_of_not_exists_equiv {x : Sentence} {l : List Sentence}
    (h : ¬ ∃ s ∈ l, x.equiv s) : x ∉ l := fun hx =>
  h ⟨x, hx, (Sentence.equiv_iff_eq x x).mpr rfl⟩

theorem count_eq_countP_equiv (l : List Sentence) (x : Sentence) :
    l.count x = l.countP (fun s => decide (x.equiv s)) := by
  induction l with
  | nil => rfl
  | cons a t ih =>
    rw [List.count_cons, List.countP_cons, ih]
    by_cases h : a = x
    · subst h
      simp [Sentence.equiv_iff_eq]
    · have h2 : ¬ x.equiv a := fun he =>
        h ((Sentence.equiv_iff_eq x a).mp he).symm
      simp [h, h2]

/-! ### Claim C3: the subset rule can miss a late-arising pattern -/

/-- A consistent session on a 2×3 grid with mines at `(0,0)` and `(0,1)`:
the cells `(0,2)` (true count 1) and `(1,0)` (true count 2) are observed. -/
def subsetPairRun : Option AI := runGame 2 3 60 [((0,2),1),((1,0),2)]

/-- The state `subsetPairRun` returns; its knowledge base is
`[{(0,1),(1,1),(1,2)} = 1, {(0,0),(0,1),(1,1)} = 2]`. -/
def subsetPairState : AI := subsetPairRun.getD (AI.init 0 0)

/-- The knowledge-base state reached inside the next call
`add_knowledge((1,2), 1)`, right after its first two steps (record the
move, mark `(1,2)` safe): marking `(1,2)` safe mutates the first sentence
into `{(0,1),(1,1)} = 1`, so the base now holds the claim's pattern
`A = {(0,0),(0,1),(1,1)} = 2`, `B = {(0,1),(1,1)} = 1`. -/
def subsetPairMid : AI :=
  ({ subsetPairState with
      moves_made := insert ((1:ℤ),(2:ℤ)) subsetPairState.moves_made }).mark_safe (1,2)

/-- The same session continued with the third observation `((1,2), 1)`. -/
def subsetPairFullRun : Option AI :=
  runGame 2 3 60 [((0,2),1),((1,0),2),((1,2),1)]

/-- The state the third call returns. -/
def subsetPairFinalState : AI := subsetPairFullRun.getD (AI.init 0 0)

/-- C3: during the call `add_knowledge((1,2), 1)` of the consistent session
`subsetPairFullRun`, the knowledge base comes to hold the distinct
sentences `A = {(0,0),(0,1),(1,1)} = 2` and `B = {(0,1),(1,1)} = 1`
(conjuncts 3-5 exhibit the call passing through `subsetPairMid`), yet when
the call returns, the sentence `{(0,0)} = 1` has not been derived and
`(0,0)` is not in `mines`: the pattern arose by in-place mutation after the
last run of the subset rule, which is never re-run. -/
theorem subset_pattern_held_but_consequence_missed :
    subsetPairRun.isSome = true ∧
    subsetPairFullRun
      = subsetPairRun.bind (fun st => add_knowledge_fuel 60 st (1,2) 1) ∧
    add_knowledge_fuel 60 subsetPairState ((1:ℤ),(2:ℤ)) 1
      = outerLoop 60 subsetPairMid
          [⟨(seedData subsetPairMid ((1:ℤ),(2:ℤ))).1,
            1 - (seedData subsetPairMid ((1:ℤ),(2:ℤ))).2⟩] ∧
    Sentence.mk {((0:ℤ),(0:ℤ)),((0:ℤ),(1:ℤ)),((1:ℤ),(1:ℤ))} 2 ∈ subsetPairMid.knowledge ∧
    Sentence.mk {((0:ℤ),(1:ℤ)),((1:ℤ),(1:ℤ))} 1 ∈ subsetPairMid.knowledge ∧
    subsetPairFullRun.isSome = true ∧
    Sentence.mk {((0:ℤ),(0:ℤ))} 1 ∉ subsetPairFinalState.knowledge ∧
    ((0:ℤ),(0:ℤ)) ∉ subsetPairFinalState.mines := by
  refine ⟨by decide, rfl, rfl, mem_of_exists_equiv (by decide),
    mem_of_exists_equiv (by decide), by decide,
    not_mem_of_not_exists_equiv (by decide), by decide⟩

/-! ### Claim C4: resolved cells can re-enter the knowledge base -/

/-- A consistent session on a 3×3 grid with mines at `(0,0)` and `(0,1)`:
the cells `(0,2)` (true count 1), `(1,0)` (true count 2) and `(1,1)` (true
count 2) are observed. -/
def staleRun : Option AI := runGame 3 3 60 [((0,2),1),((1,0),2),((1,1),2)]

/-- The state `staleRun` returns: the pending sentence
`{(0,0),(2,0),(2,1),(2,2)} = 1`, created before `(2,2)` was confirmed
safe, was appended to the knowledge base afterwards and still contains the
resolved cell `(2,2)`. -/
def staleState : AI := staleRun.getD (AI.init 0 0)

/-- C4 counterexample: when `staleRun`'s last call returns, the knowledge
base holds a sentence containing the cell `(2,2)` even though `(2,2)` is in
`safes`. -/
theorem sentence_retains_resolved_cell_at_return :
    staleRun.isSome = true ∧
    Sentence.mk {((0:ℤ),(0:ℤ)),((2:ℤ),(0:ℤ)),((2:ℤ),(1:ℤ)),((2:ℤ),(2:ℤ))} 1
      ∈ staleState.knowledge ∧
    ((2:ℤ),(2:ℤ)) ∈ staleState.safes ∧
    ((2:ℤ),(2:ℤ)) ∈ (Sentence.mk {((0:ℤ),(0:ℤ)),((2:ℤ),(0:ℤ)),((2:ℤ),(1:ℤ)),((2:ℤ),(2:ℤ))} 1).cells := by
  refine ⟨by decide, mem_of_exists_equiv (by decide), by decide, by decide⟩

/-- C4 amended: immediately after `MinesweeperAI.mark_mine(c)` or
`MinesweeperAI.mark_safe(c)` returns, no sentence currently in
`self.knowledge` contains `c`.  (Sentences pending in the `new_sentences`
queue of `add_knowledge` are not updated and may re-introduce a resolved
cell when appended later, which is what `staleRun` exhibits.) -/
theorem mark_removes_cell_from_all_knowledge (st : AI) (c : Cell) :
    (∀ s ∈ (st.mark_mine c).knowledge, c ∉ s.cells) ∧
    (∀ s ∈ (st.mark_safe c).knowledge, c ∉ s.cells) := by
  constructor
  · intro s hs
    rcases List.mem_map.mp hs with ⟨t, _, rfl⟩
    rw [Sentence.mark_mine_eq]
    exact Finset.not_mem_erase c t.cells
  · intro s hs
    rcases List.mem_map.mp hs with ⟨t, _, rfl⟩
    rw [Sentence.mark_safe_eq]
    exact Finset.not_mem_erase c t.cells

/-- Witness for the amended C4 statement on a concrete state. -/
theorem mark_removes_cell_from_all_knowledge_witness :
    Sentence.mk {((1:ℤ),(1:ℤ))} 0
      ∈ ((AI.mk 2 2 ∅ ∅ ∅ [⟨{((0:ℤ),(0:ℤ)),((1:ℤ),(1:ℤ))},1⟩]).mark_mine (0,0)).knowledge ∧
    ((0:ℤ),(0:ℤ)) ∉ (Sentence.mk {((1:ℤ),(1:ℤ))} 0).cells :=
  ⟨by decide,
    (mark_removes_cell_from_all_knowledge
      (AI.mk 2 2 ∅ ∅ ∅ [⟨{((0:ℤ),(0:ℤ)),((1:ℤ),(1:ℤ))},1⟩]) (0,0)).1
      (Sentence.mk {((1:ℤ),(1:ℤ))} 0) (by decide)⟩

/-! ### Claim C10: duplicates and empties can survive a call -/

/-- A consistent session on a 2×3 grid with a single mine at `(0,1)`: the
four cells `(0,0)`, `(0,2)`, `(1,0)`, `(1,2)` (each with true count 1) are
observed.  The final call's initial `mark_safe((1,2))` mutates the
sentence `{(0,1),(1,1),(1,2)} = 1` into a duplicate of `{(0,1),(1,1)} = 1`,
the seeded sentence is already known, and the call returns without ever
reaching the prune loops. -/
def duplicateRun : Option AI :=
  runGame 2 3 60 [((0,0),1),((0,2),1),((1,0),1),((1,2),1)]

/-- The state `duplicateRun` returns: its knowledge base is
`[{(0,1),(1,1)} = 1, {(0,1),(1,1)} = 1]`. -/
def duplicateState : AI := duplicateRun.getD (AI.init 0 0)

/-- C10 counterexample: `add_knowledge` returns a knowledge base holding
two sentences that are equal by value. -/
theorem duplicate_sentences_survive_call :
    duplicateRun.isSome = true ∧
    duplicateState.knowledge.count (Sentence.mk {((0:ℤ),(1:ℤ)),((1:ℤ),(1:ℤ))} 1) = 2 := by
  refine ⟨by decide, ?_⟩
  rw [count_eq_countP_equiv]
  decide

/-! #### The prune loops do establish the invariant when they run -/

theorem removeFirst_sublist (l : List Sentence) (x : Sentence) :
    (removeFirst l x).Sublist l := by
  induction l with
  | nil => simp [removeFirst]
  | cons y ys ih =>
    by_cases h : y = x
    · simp [removeFirst, h]
    · simpa [removeFirst, h] using ih.cons₂ y

theorem count_removeFirst_self (l : List Sentence) (x : Sentence) :
    (removeFirst l x).count x = l.count x - 1 := by
  induction l with
  | nil => simp [removeFirst]
  | cons y ys ih =>
    by_cases h : y = x
    · subst h
      simp [removeFirst]
    · have h2 : x ≠ y := fun hh => h hh.symm
      simp [removeFirst, h, List.count_cons_of_ne h2, ih]

theorem count_removeFirst_of_ne (l : List Sentence) (x v : Sentence)
    (hv : v ≠ x) : (removeFirst l x).count v = l.count v := by
  induction l with
  | nil => rfl
  | cons y ys ih =>
    by_cases h : y = x
    · subst h
      simp [removeFirst, List.count_cons_of_ne hv]
    · simp [removeFirst, h, List.count_cons, ih]

theorem dedupGo_count_le_one (snap : List Sentence) :
    ∀ live : List Sentence,
      (∀ v : Sentence, live.count v ≤ 1 ∨ live.count v ≤ snap.count v) →
      ∀ v : Sentence, (dedupGo snap live).count v ≤ 1 := by
  induction snap with
  | nil =>
    intro live h v
    rcases h v with h1 | h1
    · exact h1
    · show live.count v ≤ 1
      simp only [List.count_nil] at h1
      omega
  | cons s rest ih =>
    intro live h v
    show (dedupGo rest
        (if 1 < live.count s then removeFirst live s else live)).count v ≤ 1
    apply ih
    intro w
    by_cases hw : w = s
    · subst hw
      by_cases hc : 1 < live.count w
      · right
        rw [if_pos hc, count_removeFirst_self]
        rcases h w with h1 | h1
        · omega
        · have e : (w :: rest).count w = rest.count w + 1 :=
            List.count_cons_self w rest
          omega
      · left
        rw [if_neg hc]
        omega
    · have e : (if 1 < live.count s then removeFirst live s else live).count w
          = live.count w := by
        by_cases hc : 1 < live.count s
        · rw [if_pos hc, count_removeFirst_of_ne _ _ _ hw]
        · rw [if_neg hc]
      rw [e]
      rcases h w with h1 | h1
      · left; exact h1
      · right
        have e2 : (s :: rest).count w = rest.count w :=
          List.count_cons_of_ne hw rest
        omega

theorem dedupAll_nodup (l : List Sentence) : (dedupAll l).Nodup := by
  rw [List.nodup_iff_count_le_one]
  intro a
  exact dedupGo_count_le_one l l (fun v => Or.inr (le_refl _)) a

theorem mem_dedupGo (snap : List Sentence) :
    ∀ (live : List Sentence) (x : Sentence), x ∈ dedupGo snap live → x ∈ live := by
  induction snap with
  | nil =>
    intro live x hx
    exact hx
  | cons s rest ih =>
    intro live x hx
    have hx2 : x ∈ dedupGo rest
        (if 1 < live.count s then removeFirst live s else live) := hx
    have hx3 := ih _ x hx2
    by_cases hc : 1 < live.count s
    · rw [if_pos hc] at hx3
      exact (removeFirst_sublist live s).subset hx3
    · rw [if_neg hc] at hx3
      exact hx3

theorem pruneEmptiesGo_count (snap : List Sentence) :
    ∀ live : List Sentence,
      (∀ v : Sentence, v.cells = ∅ → live.count v ≤ snap.count v) →
      ∀ v : Sentence, v.cells = ∅ → (pruneEmptiesGo snap live).count v = 0 := by
  induction snap with
  | nil =>
    intro live h v hv
    have h1 := h v hv
    show live.count v = 0
    simp only [List.count_nil] at h1
    omega
  | cons s rest ih =>
    intro live h v hv
    show (pruneEmptiesGo rest
        (if s.cells = ∅ then removeFirst live s else live)).count v = 0
    apply ih
    · intro w hw
      by_cases hs : s.cells = ∅
      · rw [if_pos hs]
        by_cases hws : w = s
        · subst hws
          rw [count_removeFirst_self]
          have h1 := h w hw
          have e : (w :: rest).count w = rest.count w + 1 :=
            List.count_cons_self w rest
          omega
        · rw [count_removeFirst_of_ne _ _ _ hws]
          have h1 := h w hw
          have e : (s :: rest).count w = rest.count w :=
            List.count_cons_of_ne hws rest
          omega
      · rw [if_neg hs]
        have h1 := h w hw
        have hws : w ≠ s := fun he => hs (he ▸ hw)
        have e : (s :: rest).count w = rest.count w :=
          List.count_cons_of_ne hws rest
        omega
    · exact hv

theorem pruneEmptiesAll_no_empty (l : List Sentence) (s : Sentence)
    (hs : s ∈ pruneEmptiesAll l) : s.cells ≠ ∅ := by
  intro he
  have h0 := pruneEmptiesGo_count l l (fun v _ => le_refl _) s he
  rw [List.count_eq_zero] at h0
  exact h0 hs

/-- C10 amended: at the end of every outer-loop iteration of
`add_knowledge` that appended its popped sentence — that is, whenever the
prune loops actually run — the knowledge base holds no sentence with an
empty cell set and no two sentences equal by value.  (The invariant can
fail at return only when the final iteration discards its popped sentence,
as in `duplicateRun`, because the `mark_safe` of the observed cell at the
start of the call is not followed by a prune.) -/
theorem inner_body_knowledge_no_empty_no_duplicate (st : AI) (ns : List Sentence) :
    (∀ s ∈ (innerBody st ns).1.knowledge, s.cells ≠ ∅) ∧
    (innerBody st ns).1.knowledge.Nodup := by
  constructor
  · intro s hs
    have h1 : s ∈ pruneEmptiesAll (markPass st).knowledge :=
      mem_dedupGo _ _ s hs
    exact pruneEmptiesAll_no_empty _ s h1
  · exact dedupAll_nodup _

/-- Witness for the amended C10 statement on a concrete state. -/
theorem inner_body_knowledge_clean_witness :
    Sentence.mk {((0:ℤ),(0:ℤ)),((1:ℤ),(1:ℤ))} 1
      ∈ (innerBody (AI.mk 2 2 ∅ ∅ ∅ [⟨{((0:ℤ),(0:ℤ)),((1:ℤ),(1:ℤ))},1⟩]) []).1.knowledge ∧
    (Sentence.mk {((0:ℤ),(0:ℤ)),((1:ℤ),(1:ℤ))} 1).cells ≠ ∅ :=
  ⟨by decide,
    (inner_body_knowledge_no_empty_no_duplicate
      (AI.mk 2 2 ∅ ∅ ∅ [⟨{((0:ℤ),(0:ℤ)),((1:ℤ),(1:ℤ))},1⟩]) []).1 _ (by decide)⟩

/-! ### Claim C7: `known_mines` / `known_safes` -/

/-- C7: for every sentence `s`, `known_safes` returns `s.cells` exactly when
`s.count == 0` and returns nothing otherwise, and `known_mines` returns
`s.cells` exactly when `s.count == len(s.cells)` (including the empty case,
where the returned set is empty) and returns nothing otherwise. -/
theorem known_mines_known_safes_characterization (s : Sentence) :
    (s.known_safes = some s.cells ↔ s.count = 0) ∧
    (s.known_safes = none ↔ s.count ≠ 0) ∧
    (s.known_mines = some s.cells ↔ (s.cells.card : ℤ) = s.count) ∧
    (s.known_mines = none ↔ (s.cells.card : ℤ) ≠ s.count) := by
  unfold Sentence.known_safes Sentence.known_mines
  by_cases h : s.count = 0 <;> by_cases h2 : (s.cells.card : ℤ) = s.count <;>
    simp [h, h2]

/-! ### Claim C8: `Sentence.mark_mine` / `Sentence.mark_safe` -/

/-- C8: for a cell in the sentence, `mark_mine` removes it and decreases the
count by exactly one while `mark_safe` removes it leaving the count
unchanged; for a cell not in the sentence both calls leave the sentence
entirely unchanged. -/
theorem sentence_mark_mine_mark_safe_spec (s : Sentence) (c : Cell) :
    (c ∈ s.cells →
      (s.mark_mine c).cells = s.cells.erase c ∧ c ∉ (s.mark_mine c).cells ∧
      (s.mark_mine c).count = s.count - 1 ∧
      (s.mark_safe c).cells = s.cells.erase c ∧ c ∉ (s.mark_safe c).cells ∧
      (s.mark_safe c).count = s.count) ∧
    (c ∉ s.cells → s.mark_mine c = s ∧ s.mark_safe c = s) := by
  constructor
  · intro h
    simp [Sentence.mark_mine, Sentence.mark_safe, h]
  · intro h
    simp [Sentence.mark_mine, Sentence.mark_safe, h]

/-- Witness for C8 at the concrete sentence `{(0,0),(1,1)} = 1` and the
cells `(0,0)` (a member) and `(5,5)` (not a member). -/
theorem sentence_mark_mine_mark_safe_spec_witness :
    ((Sentence.mk {((0:ℤ),(0:ℤ)), ((1:ℤ),(1:ℤ))} 1).mark_mine (0,0)).cells
        = (Sentence.mk {((0:ℤ),(0:ℤ)), ((1:ℤ),(1:ℤ))} 1).cells.erase (0,0) ∧
      ((0:ℤ),(0:ℤ)) ∉ ((Sentence.mk {((0:ℤ),(0:ℤ)), ((1:ℤ),(1:ℤ))} 1).mark_mine (0,0)).cells ∧
      ((Sentence.mk {((0:ℤ),(0:ℤ)), ((1:ℤ),(1:ℤ))} 1).mark_mine (0,0)).count = 1 - 1 ∧
      ((Sentence.mk {((0:ℤ),(0:ℤ)), ((1:ℤ),(1:ℤ))} 1).mark_safe (0,0)).cells
        = (Sentence.mk {((0:ℤ),(0:ℤ)), ((1:ℤ),(1:ℤ))} 1).cells.erase (0,0) ∧
      ((0:ℤ),(0:ℤ)) ∉ ((Sentence.mk {((0:ℤ),(0:ℤ)), ((1:ℤ),(1:ℤ))} 1).mark_safe (0,0)).cells ∧
      ((Sentence.mk {((0:ℤ),(0:ℤ)), ((1:ℤ),(1:ℤ))} 1).mark_safe (0,0)).count = 1 :=
  (sentence_mark_mine_mark_safe_spec (Sentence.mk {((0:ℤ),(0:ℤ)), ((1:ℤ),(1:ℤ))} 1) (0,0)).1
    (by decide)

/-! ### Claim C9: idempotence of the knowledge-base marking operations -/

/-- C9: on any AI state, marking the same cell as a mine (or as safe) twice
in immediate succession yields exactly the same state as marking it once. -/
theorem ai_mark_mine_mark_safe_idempotent (st : AI) (c : Cell) :
    (st.mark_mine c).mark_mine c = st.mark_mine c ∧
    (st.mark_safe c).mark_safe c = st.mark_safe c := by
  constructor
  · ext1
    · rfl
    · rfl
    · rfl
    · rw [AI.mark_mine_mines, AI.mark_mine_mines, Finset.insert_idem]
    · rfl
    · show ((st.knowledge.map (fun s => s.mark_mine c)).map
          (fun s => s.mark_mine c)) = st.knowledge.map (fun s => s.mark_mine c)
      rw [List.map_map]
      apply List.map_congr_left
      intro s _
      simp only [Function.comp_apply]
      exact Sentence.mark_mine_idem s c
  · ext1
    · rfl
    · rfl
    · rfl
    · rfl
    · rw [AI.mark_safe_safes, AI.mark_safe_safes, Finset.insert_idem]
    · show ((st.knowledge.map (fun s => s.mark_safe c)).map
          (fun s => s.mark_safe c)) = st.knowledge.map (fun s => s.mark_safe c)
      rw [List.map_map]
      apply List.map_congr_left
      intro s _
      simp only [Function.comp_apply]
      exact Sentence.mark_safe_idem s c

/-! ### Claim C6: the seeded sentence -/

/-- The specification's description of the neighbour set: all in-bounds
cells within Chebyshev distance 1 of `cell`, excluding `cell` itself
(the 3×3 block of coordinates around `cell`, minus `cell`, restricted to
the grid). -/
def specNeighbors (st : AI) (cell : Cell) : Finset Cell :=
  ((({cell.1 - 1, cell.1, cell.1 + 1} : Finset ℤ) ×ˢ
      ({cell.2 - 1, cell.2, cell.2 + 1} : Finset ℤ)).erase cell).filter
    (fun c => c.1 ≤ st.height - 1 ∧ 0 ≤ c.1 ∧ c.2 ≤ st.width - 1 ∧ 0 ≤ c.2)

theorem mem_neighborList (cell x : Cell) :
    x ∈ neighborList cell ↔
      (x.1 = cell.1 - 1 ∨ x.1 = cell.1 ∨ x.1 = cell.1 + 1) ∧
      (x.2 = cell.2 - 1 ∨ x.2 = cell.2 ∨ x.2 = cell.2 + 1) := by
  unfold neighborList
  simp only [List.mem_flatMap, List.mem_map, List.mem_cons,
    List.not_mem_nil, or_false]
  constructor
  · rintro ⟨i, hi, j, hj, rfl⟩
    rcases hi with rfl | rfl | rfl <;> rcases hj with rfl | rfl | rfl <;>
      exact ⟨by omega, by omega⟩
  · rintro ⟨h1, h2⟩
    refine ⟨x.1 - cell.1, by omega, x.2 - cell.2, by omega, ?_⟩
    rw [Prod.ext_iff]
    constructor <;> simp

/-- Effect of the seed-building fold over any duplicate-free candidate
list: the surviving cells are the in-bounds candidates that are neither
safe nor mines, and the adjuster counts the in-bounds candidates that are
not safe but are known mines. -/
theorem seedData_foldl (st : AI) (l : List Cell) (hn : l.Nodup)
    (acc : Finset Cell × ℤ) :
    l.foldl (seedStep st) acc
      = (acc.1 ∪ l.toFinset.filter
          (fun c => (c.1 ≤ st.height - 1 ∧ 0 ≤ c.1 ∧
              c.2 ≤ st.width - 1 ∧ 0 ≤ c.2) ∧ c ∉ st.safes ∧ c ∉ st.mines),
        acc.2 + ((l.toFinset.filter
          (fun c => (c.1 ≤ st.height - 1 ∧ 0 ≤ c.1 ∧
              c.2 ≤ st.width - 1 ∧ 0 ≤ c.2) ∧ c ∉ st.safes ∧ c ∈ st.mines)).card : ℤ)) := by
  induction l generalizing acc with
  | nil => simp
  | cons c t ih =>
    have hc : c ∉ t := (List.nodup_cons.mp hn).1
    have ht : t.Nodup := (List.nodup_cons.mp hn).2
    have hcT : c ∉ t.toFinset := by simpa using hc
    have step : (c :: t).foldl (seedStep st) acc
        = t.foldl (seedStep st) (seedStep st acc c) := rfl
    rw [step, ih ht (seedStep st acc c)]
    by_cases hb : c.1 ≤ st.height - 1 ∧ 0 ≤ c.1 ∧ c.2 ≤ st.width - 1 ∧ 0 ≤ c.2
    · by_cases hs : c ∈ st.safes
      · have e : seedStep st acc c = acc := by
          simp [seedStep, hb, hs]
        rw [e]
        have p1 : ¬ ((c.1 ≤ st.height - 1 ∧ 0 ≤ c.1 ∧ c.2 ≤ st.width - 1 ∧
            0 ≤ c.2) ∧ c ∉ st.safes ∧ c ∉ st.mines) := by tauto
        have p2 : ¬ ((c.1 ≤ st.height - 1 ∧ 0 ≤ c.1 ∧ c.2 ≤ st.width - 1 ∧
            0 ≤ c.2) ∧ c ∉ st.safes ∧ c ∈ st.mines) := by tauto
        rw [List.toFinset_cons, Finset.filter_insert, Finset.filter_insert,
          if_neg p1, if_neg p2]
      · by_cases hm : c ∈ st.mines
        · have e : seedStep st acc c = (acc.1, acc.2 + 1) := by
            simp [seedStep, hb, hs, hm]
          rw [e]
          have p1 : ¬ ((c.1 ≤ st.height - 1 ∧ 0 ≤ c.1 ∧ c.2 ≤ st.width - 1 ∧
              0 ≤ c.2) ∧ c ∉ st.safes ∧ c ∉ st.mines) := by tauto
          have p2 : (c.1 ≤ st.height - 1 ∧ 0 ≤ c.1 ∧ c.2 ≤ st.width - 1 ∧
              0 ≤ c.2) ∧ c ∉ st.safes ∧ c ∈ st.mines := ⟨hb, hs, hm⟩
          rw [List.toFinset_cons, Finset.filter_insert, Finset.filter_insert,
            if_neg p1, if_pos p2]
          have hni : c ∉ t.toFinset.filter
              (fun c => (c.1 ≤ st.height - 1 ∧ 0 ≤ c.1 ∧ c.2 ≤ st.width - 1 ∧
                0 ≤ c.2) ∧ c ∉ st.safes ∧ c ∈ st.mines) := by
            simp [hcT]
          rw [Finset.card_insert_of_not_mem hni]
          refine Prod.ext rfl ?_
          push_cast
          ring
        · have e : seedStep st acc c = (insert c acc.1, acc.2) := by
            simp [seedStep, hb, hs, hm]
          rw [e]
          have p1 : (c.1 ≤ st.height - 1 ∧ 0 ≤ c.1 ∧ c.2 ≤ st.width - 1 ∧
              0 ≤ c.2) ∧ c ∉ st.safes ∧ c ∉ st.mines := ⟨hb, hs, hm⟩
          have p2 : ¬ ((c.1 ≤ st.height - 1 ∧ 0 ≤ c.1 ∧ c.2 ≤ st.width - 1 ∧
              0 ≤ c.2) ∧ c ∉ st.safes ∧ c ∈ st.mines) := by tauto
          rw [List.toFinset_cons, Finset.filter_insert, Finset.filter_insert,
            if_pos p1, if_neg p2]
          refine Prod.ext ?_ rfl
          show insert c acc.1 ∪ _ = acc.1 ∪ insert c _
          ext y
          simp only [Finset.mem_union, Finset.mem_insert]
          tauto
    · have e : seedStep st acc c = acc := by
        simp [seedStep, hb]
      rw [e]
      have p1 : ¬ ((c.1 ≤ st.height - 1 ∧ 0 ≤ c.1 ∧ c.2 ≤ st.width - 1 ∧
          0 ≤ c.2) ∧ c ∉ st.safes ∧ c ∉ st.mines) := by tauto
      have p2 : ¬ ((c.1 ≤ st.height - 1 ∧ 0 ≤ c.1 ∧ c.2 ≤ st.width - 1 ∧
          0 ≤ c.2) ∧ c ∉ st.safes ∧ c ∈ st.mines) := by tauto
      rw [List.toFinset_cons, Finset.filter_insert, Finset.filter_insert,
        if_neg p1, if_neg p2]

/-- The source's neighbour double loop, written as one map over the nine
offset pairs in loop order (the two forms compute the very same list). -/
theorem neighborList_eq_map (cell : Cell) :
    neighborList cell
      = ([(-1,-1),(-1,0),(-1,1),(0,-1),(0,0),(0,1),(1,-1),(1,0),(1,1)] :
          List (ℤ × ℤ)).map (fun p => (cell.1 + p.1, cell.2 + p.2)) := rfl

theorem neighborList_nodup (cell : Cell) : (neighborList cell).Nodup := by
  rw [neighborList_eq_map]
  have hinj : Function.Injective
      (fun p : ℤ × ℤ => (cell.1 + p.1, cell.2 + p.2)) := by
    intro a b hab
    rw [Prod.ext_iff] at hab ⊢
    simp only at hab
    constructor <;> omega
  exact (by decide : ([(-1,-1),(-1,0),(-1,1),(0,-1),(0,0),(0,1),(1,-1),(1,0),(1,1)] :
    List (ℤ × ℤ)).Nodup).map hinj

set_option maxHeartbeats 2000000 in
/-- C6: provided the confirmed-safe and confirmed-mine sets are disjoint,
the sentence seeded by `add_knowledge(cell, count)` has as its cells
exactly the in-bounds Chebyshev-distance-1 neighbours of `cell` minus the
cells already resolved safe or mine, and its count is the observed count
minus the number of in-bounds neighbours already known to be mines; the
third conjunct records that `add_knowledge` is precisely the outer loop
seeded with that sentence, on the state reached after recording the move
and marking `cell` safe. -/
theorem seed_sentence_characterization (st : AI) (cell : Cell) (count : ℤ)
    (fuel : ℕ) (hd : Disjoint st.safes st.mines) :
    (seedData (({ st with moves_made := insert cell st.moves_made }).mark_safe cell) cell).1
      = (specNeighbors st cell \ st.safes) \ st.mines ∧
    (seedData (({ st with moves_made := insert cell st.moves_made }).mark_safe cell) cell).2
      = ((specNeighbors st cell ∩ st.mines).card : ℤ) ∧
    add_knowledge_fuel fuel st cell count
      = outerLoop fuel (({ st with moves_made := insert cell st.moves_made }).mark_safe cell)
          [⟨(specNeighbors st cell \ st.safes) \ st.mines,
            count - ((specNeighbors st cell ∩ st.mines).card : ℤ)⟩] := by
  have hdm : ∀ x : Cell, x ∈ st.mines → x ∉ st.safes := fun x hx hs =>
    (Finset.disjoint_left.mp hd) hs hx
  set st2 : AI :=
    ({ st with moves_made := insert cell st.moves_made }).mark_safe cell with hst2
  have h2s : st2.safes = insert cell st.safes :=
    AI.mark_safe_safes { st with moves_made := insert cell st.moves_made } cell
  have h2m : st2.mines = st.mines := rfl
  have h2h : st2.height = st.height := rfl
  have h2w : st2.width = st.width := rfl
  have hfold := seedData_foldl st2 (neighborList cell) (neighborList_nodup cell) (∅, 0)
  have hcells : (seedData st2 cell).1
      = (specNeighbors st cell \ st.safes) \ st.mines := by
    show ((neighborList cell).foldl (seedStep st2) (∅, 0)).1
        = (specNeighbors st cell \ st.safes) \ st.mines
    rw [hfold]
    show ∅ ∪ _ = _
    rw [Finset.empty_union]
    ext x
    simp only [Finset.mem_filter, List.mem_toFinset, mem_neighborList,
      h2s, h2m, h2h, h2w, Finset.mem_sdiff, specNeighbors, Finset.mem_erase,
      Finset.mem_product, Finset.mem_insert, Finset.mem_singleton]
    tauto
  have hcount : (seedData st2 cell).2
      = ((specNeighbors st cell ∩ st.mines).card : ℤ) := by
    show ((neighborList cell).foldl (seedStep st2) (∅, 0)).2
        = ((specNeighbors st cell ∩ st.mines).card : ℤ)
    rw [hfold]
    show (0 : ℤ) + _ = _
    rw [zero_add]
    have hset : (neighborList cell).toFinset.filter
        (fun c => (c.1 ≤ st2.height - 1 ∧ 0 ≤ c.1 ∧
            c.2 ≤ st2.width - 1 ∧ 0 ≤ c.2) ∧ c ∉ st2.safes ∧ c ∈ st2.mines)
        = specNeighbors st cell ∩ st.mines := by
      ext x
      simp only [Finset.mem_filter, List.mem_toFinset, mem_neighborList,
        h2s, h2m, h2h, h2w, Finset.mem_inter, specNeighbors, Finset.mem_erase,
        Finset.mem_product, Finset.mem_insert, Finset.mem_singleton]
      have hx := hdm x
      tauto
    rw [hset]
  refine ⟨hcells, hcount, ?_⟩
  show outerLoop fuel st2
      [⟨(seedData st2 cell).1, count - (seedData st2 cell).2⟩] = _
  rw [hcells, hcount]

/-- Base state for the C6 witness: a 3×3 grid with one known mine `(0,0)`
and one known safe cell `(2,2)`. -/
def seedWitnessBase : AI := AI.mk 3 3 ∅ {((0:ℤ),(0:ℤ))} {((2:ℤ),(2:ℤ))} []

/-- Witness for C6: the characterization applied to `seedWitnessBase`,
observing `(1,1)` with count 3. -/
theorem seed_sentence_characterization_witness :
    (seedData (({ seedWitnessBase with
        moves_made := insert ((1:ℤ),(1:ℤ)) seedWitnessBase.moves_made
      }).mark_safe (1,1)) (1,1)).1
      = (specNeighbors seedWitnessBase (1,1)
          \ seedWitnessBase.safes) \ seedWitnessBase.mines ∧
    (seedData (({ seedWitnessBase with
        moves_made := insert ((1:ℤ),(1:ℤ)) seedWitnessBase.moves_made
      }).mark_safe (1,1)) (1,1)).2
      = ((specNeighbors seedWitnessBase (1,1) ∩ seedWitnessBase.mines).card : ℤ) ∧
    add_knowledge_fuel 30 seedWitnessBase (1,1) 3
      = outerLoop 30 (({ seedWitnessBase with
          moves_made := insert ((1:ℤ),(1:ℤ)) seedWitnessBase.moves_made
        }).mark_safe (1,1))
          [⟨(specNeighbors seedWitnessBase (1,1)
              \ seedWitnessBase.safes) \ seedWitnessBase.mines,
            3 - ((specNeighbors seedWitnessBase (1,1) ∩ seedWitnessBase.mines).card : ℤ)⟩] :=
  seed_sentence_characterization seedWitnessBase (1,1) 3 30
    (Finset.disjoint_left.mpr (by decide))

end Minesweeper
